import Mathlib

/-!
Verification of the complex-number value type in `src/complex.rs`.

The Rust type `Complex { real: f64, imag: f64 }` is embedded shallowly.
`f64` is modelled by `F64`: IEEE-754 special values (NaN, signed
infinities, signed zeros) are represented explicitly, and nonzero finite
doubles are represented by their exact rational value.  The model follows
the IEEE special-value propagation and sign rules exactly; arithmetic on
finite values is exact (no rounding, overflow or underflow), which is the
idealisation every theorem below lives with and which no theorem's
hypothesis or conclusion depends on.

Host math primitives (`hypot`, `atan2`, `exp`, `ln`, `cos`, `sin`,
`sqrt`, `powi`, and the decimal formatters) are not part of the
repository: the source calls the Rust standard library.  They are
modelled as a parameter structure `Host`; the facts the IEEE standard and
the Rust documentation guarantee about them are collected in the `HostOk`
contract, and parametric theorems assume only that contract.  A concrete
instance `host0` is provided whose behaviour agrees with the real host on
every IEEE-specified special value (which are the only points at which
any closed theorem evaluates it).
-/

namespace RustComplex

/-- Model of an IEEE-754 binary64 value: NaN, signed infinity, signed
zero (`true` = negative sign bit), or a nonzero finite value given by its
exact rational value. -/
inductive F64 where
  | nan : F64
  | inf : Bool → F64
  | zero : Bool → F64
  | fin : ℚ → F64
deriving DecidableEq, Repr

namespace F64

/-- The sign bit (`true` = negative). NaN is modelled with a clear sign bit. -/
def signBit : F64 → Bool
  | nan => false
  | inf s => s
  | zero s => s
  | fin q => decide (q < 0)

def isNaN : F64 → Bool
  | nan => true
  | _ => false

def isInf : F64 → Bool
  | inf _ => true
  | _ => false

def isZero : F64 → Bool
  | zero _ => true
  | _ => false

/-- A finite value: a signed zero or a nonzero finite value. -/
def isFinite : F64 → Bool
  | zero _ => true
  | fin _ => true
  | _ => false

/-- The rational value of a finite model value (0 for NaN and infinities,
which have no finite value). -/
def finiteVal : F64 → ℚ
  | fin q => q
  | _ => 0

/-- IEEE `0 ≤ x` (false on NaN, true on both signed zeros). -/
def nonneg : F64 → Bool
  | nan => false
  | inf s => !s
  | zero _ => true
  | fin q => decide (0 ≤ q)

/-- IEEE equality `x == y`: NaN compares unequal to everything, the two
signed zeros compare equal. -/
def ieeeEq : F64 → F64 → Bool
  | nan, _ => false
  | _, nan => false
  | inf s, inf t => s == t
  | zero _, zero _ => true
  | zero _, fin q => q == 0
  | fin q, zero _ => q == 0
  | fin p, fin q => p == q
  | _, _ => false

/-- IEEE negation: flips the sign bit. -/
def neg : F64 → F64
  | nan => nan
  | inf s => inf (!s)
  | zero s => zero (!s)
  | fin q => fin (-q)

/-- IEEE addition (round-to-nearest ties-to-even determines the sign of a
zero sum: `(+0) + (-0) = +0`, and an exact cancellation of nonzero finite
values yields `+0`). Finite arithmetic is exact in this model. -/
def add : F64 → F64 → F64
  | nan, _ => nan
  | _, nan => nan
  | inf s, inf t => if s = t then inf s else nan
  | inf s, _ => inf s
  | _, inf t => inf t
  | zero s, zero t => if s && t then zero true else zero false
  | zero _, fin q => fin q
  | fin q, zero _ => fin q
  | fin p, fin q => if p + q = 0 then zero false else fin (p + q)

/-- IEEE subtraction, which coincides with adding the negation. -/
def sub (a b : F64) : F64 := a.add b.neg

/-- IEEE multiplication: the sign of an infinite or zero product is the
xor of the operand signs; `0 × ∞ = NaN`. -/
def mul : F64 → F64 → F64
  | nan, _ => nan
  | _, nan => nan
  | inf s, inf t => inf (s != t)
  | inf _, zero _ => nan
  | zero _, inf _ => nan
  | inf s, fin q => inf (s != decide (q < 0))
  | fin q, inf s => inf (decide (q < 0) != s)
  | zero s, zero t => zero (s != t)
  | zero s, fin q => zero (s != decide (q < 0))
  | fin q, zero s => zero (decide (q < 0) != s)
  | fin p, fin q => if p * q = 0 then zero (decide (p < 0) != decide (q < 0)) else fin (p * q)

/-- IEEE division: `x / 0` is a signed infinity for nonzero `x`, and
`0 / 0`, `∞ / ∞` are NaN. -/
def div : F64 → F64 → F64
  | nan, _ => nan
  | _, nan => nan
  | inf _, inf _ => nan
  | inf s, zero t => inf (s != t)
  | inf s, fin q => inf (s != decide (q < 0))
  | zero s, inf t => zero (s != t)
  | zero _, zero _ => nan
  | zero s, fin q => zero (s != decide (q < 0))
  | fin q, inf s => zero (decide (q < 0) != s)
  | fin q, zero s => inf (decide (q < 0) != s)
  | fin p, fin q => if p / q = 0 then zero (decide (p < 0) != decide (q < 0)) else fin (p / q)

/-- Conversion of an `i32` exponent to `f64` (`exp as f64` in the source);
every `i32` is exactly representable. -/
def ofInt (n : ℤ) : F64 :=
  if n = 0 then zero false else fin (n : ℚ)

end F64

/-- `struct Complex { real: f64, imag: f64 }` from `src/complex.rs`. -/
structure Complex where
  real : F64
  imag : F64
deriving DecidableEq, Repr

/-- The host math primitives the source calls on `f64`.  They belong to
the Rust standard library, not to this repository, so they are a
parameter of the embedding; `HostOk` below states the facts about them
that the IEEE standard / Rust documentation guarantee and that the
theorems use. -/
structure Host where
  exp : F64 → F64
  ln : F64 → F64
  cos : F64 → F64
  sin : F64 → F64
  sqrt : F64 → F64
  hypot : F64 → F64 → F64
  atan2 : F64 → F64 → F64
  powi : F64 → ℤ → F64
  /-- `{}` rendering of a double. -/
  fmt : F64 → String
  /-- `{:+}` rendering of a double (sign always shown). -/
  fmtPlus : F64 → String
  /-- `{:.p$}` rendering of a double. -/
  fmtPrec : F64 → ℕ → String
  /-- `{:+.p$}` rendering of a double. -/
  fmtPlusPrec : F64 → ℕ → String

namespace Complex

/-- `REAL_UNIT`: the constant `(1.0, 0.0)`. -/
def REAL_UNIT : Complex := ⟨F64.fin 1, F64.zero false⟩

/-- `IMAG_UNIT`: the constant `(0.0, 1.0)`. -/
def IMAG_UNIT : Complex := ⟨F64.zero false, F64.fin 1⟩

/-- `abs()`: `self.real.hypot(self.imag)`. -/
def abs (H : Host) (z : Complex) : F64 := H.hypot z.real z.imag

/-- `arg()`: `self.imag.atan2(self.real)`. -/
def arg (H : Host) (z : Complex) : F64 := H.atan2 z.imag z.real

/-- `norm()`: `self.real * self.real + self.imag * self.imag`. -/
def norm (z : Complex) : F64 := (z.real.mul z.real).add (z.imag.mul z.imag)

/-- `conj()`: `(self.real, -self.imag)`. -/
def conj (z : Complex) : Complex := ⟨z.real, z.imag.neg⟩

/-- `Neg::neg`. -/
def negC (z : Complex) : Complex := ⟨z.real.neg, z.imag.neg⟩

/-- `Add for Complex`: component-wise. -/
def add (z w : Complex) : Complex := ⟨z.real.add w.real, z.imag.add w.imag⟩

/-- `AddAssign for Complex`: `self.real += other.real; self.imag += other.imag;`
modelled as the two sequential field updates. -/
def addAssign (z w : Complex) : Complex :=
  let z1 : Complex := { z with real := z.real.add w.real }
  { z1 with imag := z1.imag.add w.imag }

/-- `Add<f64> for Complex`: `(self.real + rhs, self.imag)`. -/
def addScalar (z : Complex) (rhs : F64) : Complex := ⟨z.real.add rhs, z.imag⟩

/-- `AddAssign<f64> for Complex`: `self.real += rhs;`. -/
def addAssignScalar (z : Complex) (rhs : F64) : Complex :=
  { z with real := z.real.add rhs }

/-- `Sub for Complex`: component-wise. -/
def sub (z w : Complex) : Complex := ⟨z.real.sub w.real, z.imag.sub w.imag⟩

/-- `SubAssign for Complex`: sequential field updates. -/
def subAssign (z w : Complex) : Complex :=
  let z1 : Complex := { z with real := z.real.sub w.real }
  { z1 with imag := z1.imag.sub w.imag }

/-- `Sub<f64> for Complex`: `(self.real - rhs, self.imag)`. -/
def subScalar (z : Complex) (rhs : F64) : Complex := ⟨z.real.sub rhs, z.imag⟩

/-- `SubAssign<f64> for Complex`: `self.real -= rhs;`. -/
def subAssignScalar (z : Complex) (rhs : F64) : Complex :=
  { z with real := z.real.sub rhs }

/-- `Mul for Complex`: `(ac − bd, ad + bc)`. -/
def mul (z w : Complex) : Complex :=
  ⟨(z.real.mul w.real).sub (z.imag.mul w.imag),
   (z.real.mul w.imag).add (z.imag.mul w.real)⟩

/-- `MulAssign for Complex`: the source assigns the pair
`(self.real, self.imag) = (…, …)` simultaneously, both right-hand sides
reading the old fields. -/
def mulAssign (z w : Complex) : Complex :=
  let p : F64 := (z.real.mul w.real).sub (z.imag.mul w.imag)
  let q : F64 := (z.real.mul w.imag).add (z.imag.mul w.real)
  { z with real := p, imag := q }

/-- `Mul<f64> for Complex`: both components scaled. -/
def mulScalar (z : Complex) (rhs : F64) : Complex :=
  ⟨z.real.mul rhs, z.imag.mul rhs⟩

/-- `MulAssign<f64> for Complex`: `self.real *= rhs; self.imag *= rhs;`. -/
def mulAssignScalar (z : Complex) (rhs : F64) : Complex :=
  let z1 : Complex := { z with real := z.real.mul rhs }
  { z1 with imag := z1.imag.mul rhs }

/-- `Div for Complex`: multiply by the conjugate of the divisor, divide by
`other.norm()`. -/
def div (z w : Complex) : Complex :=
  let denom : F64 := w.norm
  ⟨((z.real.mul w.real).add (z.imag.mul w.imag)).div denom,
   ((z.imag.mul w.real).sub (z.real.mul w.imag)).div denom⟩

/-- `DivAssign for Complex`: simultaneous pair assignment from the old
fields, with the same right-hand sides as `Div`. -/
def divAssign (z w : Complex) : Complex :=
  let denom : F64 := w.norm
  let p : F64 := ((z.real.mul w.real).add (z.imag.mul w.imag)).div denom
  let q : F64 := ((z.imag.mul w.real).sub (z.real.mul w.imag)).div denom
  { z with real := p, imag := q }

/-- `Div<f64> for Complex`: both components divided. -/
def divScalar (z : Complex) (rhs : F64) : Complex :=
  ⟨z.real.div rhs, z.imag.div rhs⟩

/-- `DivAssign<f64> for Complex`: `self.real /= rhs; self.imag /= rhs;`. -/
def divAssignScalar (z : Complex) (rhs : F64) : Complex :=
  let z1 : Complex := { z with real := z.real.div rhs }
  { z1 with imag := z1.imag.div rhs }

/-- `exp()`: `(e^real · cos(imag), e^real · sin(imag))`. -/
def exp (H : Host) (z : Complex) : Complex :=
  let exp_real : F64 := H.exp z.real
  ⟨exp_real.mul (H.cos z.imag), exp_real.mul (H.sin z.imag)⟩

/-- `ln()`: `(ln(abs()), arg())`. -/
def ln (H : Host) (z : Complex) : Complex :=
  ⟨H.ln (abs H z), arg H z⟩

/-- `sqrt()`: `abs_sqrt = sqrt(abs())`, `arg_half = arg() * 0.5`, result
`(abs_sqrt · cos(arg_half), abs_sqrt · sin(arg_half))`. -/
def sqrtC (H : Host) (z : Complex) : Complex :=
  let abs_sqrt : F64 := H.sqrt (abs H z)
  let arg_half : F64 := (arg H z).mul (F64.fin (1/2))
  ⟨abs_sqrt.mul (H.cos arg_half), abs_sqrt.mul (H.sin arg_half)⟩

/-- `powi(exp)`: `abs_pow = abs().powi(exp)`, result
`(abs_pow · cos(exp as f64 · arg), abs_pow · sin(exp as f64 · arg))`. -/
def powi (H : Host) (z : Complex) (e : ℤ) : Complex :=
  let abs_pow : F64 := H.powi (abs H z) e
  let a : F64 := arg H z
  ⟨abs_pow.mul (H.cos ((F64.ofInt e).mul a)),
   abs_pow.mul (H.sin ((F64.ofInt e).mul a))⟩

/-- `powc(exp)` exactly as written in the source:
`((exp.real·ln.real − exp.imag·ln.imag).exp(), exp.real·ln.imag + exp.imag·ln.real)`
where `ln = self.ln()`. -/
def powc (H : Host) (z e : Complex) : Complex :=
  let l : Complex := ln H z
  ⟨H.exp ((e.real.mul l.real).sub (e.imag.mul l.imag)),
   (e.real.mul l.imag).add (e.imag.mul l.real)⟩

/-- `fmt::Display`: with a requested precision `p` the source writes
`{:.p$}{:+.p$}i`; without one it writes `{}{:+}i`. -/
def display (H : Host) (z : Complex) : Option ℕ → String
  | some p => H.fmtPrec z.real p ++ H.fmtPlusPrec z.imag p ++ "i"
  | none => H.fmt z.real ++ H.fmtPlus z.imag ++ "i"

/-- `fmt::Debug`: always writes `{}{:+}i`, whatever precision the caller
requested. -/
def debugFmt (H : Host) (z : Complex) (_precision : Option ℕ) : String :=
  H.fmt z.real ++ H.fmtPlus z.imag ++ "i"

/-- IEEE component-wise value equality of two complex values. -/
def ieeeEq (z w : Complex) : Bool :=
  z.real.ieeeEq w.real && z.imag.ieeeEq w.imag

end Complex


/-! ### The concrete host model

`host0` below is one admissible model of the host math library.  On every
IEEE-754-specified special value (NaN, infinities, signed zeros, the
exact results such as `ln 1 = +0`, `cos 0 = 1`, `atan2` on axes, exact
square roots, `powi _ 0 = 1`) it returns exactly what the real host
returns; those are the only points at which any closed theorem below
evaluates it.  At generic points, where the real host rounds a
transcendental value, it returns a documented stand-in that still
satisfies the `HostOk` contract; all universally quantified theorems are
parametric in the host and use only the contract. -/

/-- The exact rational value of the `f64` nearest to π
(`3.14159265358979311…`, strictly below the real π). -/
def pid : ℚ := 884279719003555 / 281474976710656

/-- The exact rational value of the `f64` nearest to π/2; equal to `pid / 2`. -/
def pid2 : ℚ := 884279719003555 / 562949953421312

/-- The exact rational value of the `f64` nearest to π/4; equal to `pid / 4`. -/
def pid4 : ℚ := 884279719003555 / 1125899906842624

/-- The exact rational value of the `f64` nearest to 3π/4. -/
def pid34 : ℚ := 2652839157010665 / 1125899906842624

/-- The exact rational value of `cos(pid2)` as the real host computes it:
the double `6.123233995736766e-17`. -/
def c0 : ℚ := 4967757600021511 / 81129638414606681695789005144064

/-- Exact rational square root, when it exists. -/
def ratSqrt (q : ℚ) : Option ℚ :=
  let sn : ℕ := Nat.sqrt q.num.natAbs
  let sd : ℕ := Nat.sqrt q.den
  if sn * sn = q.num.natAbs ∧ sd * sd = q.den then some ((sn : ℚ) / (sd : ℚ)) else none

/-- Modelled host `f64::atan2`: all IEEE special-value cases are exact; a
generic finite/finite pair (both axes nonzero, off every special case)
gets the sign-correct stand-in `±0`, which the contract bound `|·| ≤ pid`
allows. -/
def atan2H : F64 → F64 → F64
  | F64.nan, _ => F64.nan
  | _, F64.nan => F64.nan
  | F64.zero s, x => if x.signBit then (if s then F64.fin (-pid) else F64.fin pid) else F64.zero s
  | F64.inf s, F64.inf t =>
      if t then (if s then F64.fin (-pid34) else F64.fin pid34)
      else (if s then F64.fin (-pid4) else F64.fin pid4)
  | F64.inf s, _ => if s then F64.fin (-pid2) else F64.fin pid2
  | F64.fin q, F64.zero _ => if q < 0 then F64.fin (-pid2) else F64.fin pid2
  | F64.fin q, F64.inf t =>
      if t then (if q < 0 then F64.fin (-pid) else F64.fin pid)
      else F64.zero (decide (q < 0))
  | F64.fin q, F64.fin _ => F64.zero (decide (q < 0))

/-- Modelled host `f64::hypot`: IEEE cases (an infinite argument wins over
NaN; zero and one-axis inputs exact), exact when `√(x²+y²)` is rational,
and the stand-in `|x| + |y|` (nonnegative, finite) otherwise. -/
def hypotH : F64 → F64 → F64
  | F64.inf _, _ => F64.inf false
  | _, F64.inf _ => F64.inf false
  | F64.nan, _ => F64.nan
  | _, F64.nan => F64.nan
  | F64.zero _, F64.zero _ => F64.zero false
  | F64.zero _, F64.fin q => F64.fin |q|
  | F64.fin q, F64.zero _ => F64.fin |q|
  | F64.fin p, F64.fin q =>
      match ratSqrt (p * p + q * q) with
      | some r => F64.fin r
      | none => F64.fin (|p| + |q|)

/-- Modelled host `f64::sqrt`: IEEE cases exact (`√(-0) = -0`,
`√x = NaN` for `x < 0`), exact on rational squares, identity stand-in
otherwise (positive, so the contract holds). -/
def sqrtH : F64 → F64
  | F64.nan => F64.nan
  | F64.inf false => F64.inf false
  | F64.inf true => F64.nan
  | F64.zero s => F64.zero s
  | F64.fin q =>
      if q < 0 then F64.nan
      else match ratSqrt q with
           | some r => if r = 0 then F64.zero false else F64.fin r
           | none => F64.fin q

/-- Modelled host `f64::exp`: IEEE cases exact (`exp(±0) = 1`,
`exp(-∞) = +0`), constant stand-in `1` at generic finite points (no
theorem evaluates it there). -/
def expH : F64 → F64
  | F64.nan => F64.nan
  | F64.inf false => F64.inf false
  | F64.inf true => F64.zero false
  | F64.zero _ => F64.fin 1
  | F64.fin _ => F64.fin 1

/-- Modelled host `f64::ln`: IEEE cases exact (`ln(±0) = -∞`,
`ln 1 = +0`, NaN for negative arguments), identity stand-in at generic
positive points. -/
def lnH : F64 → F64
  | F64.nan => F64.nan
  | F64.inf false => F64.inf false
  | F64.inf true => F64.nan
  | F64.zero _ => F64.inf true
  | F64.fin q => if q < 0 then F64.nan else if q = 1 then F64.zero false else F64.fin q

/-- Modelled host `f64::cos`: exact at `±0` (`cos(±0) = 1`) and at the
doubles `±pid2` nearest ±π/2 (where the real host returns the positive
double `c0`); positive stand-in `1` elsewhere. -/
def cosH : F64 → F64
  | F64.nan => F64.nan
  | F64.inf _ => F64.nan
  | F64.zero _ => F64.fin 1
  | F64.fin q => if q = pid2 ∨ q = -pid2 then F64.fin c0 else F64.fin 1

/-- Modelled host `f64::sin`: exact at `±0` (`sin(±0) = ±0`) and at
`±pid2` (where the real host returns `±1`); identity stand-in elsewhere
(finite, as the contract demands). -/
def sinH : F64 → F64
  | F64.nan => F64.nan
  | F64.inf _ => F64.nan
  | F64.zero s => F64.zero s
  | F64.fin q => if q = pid2 then F64.fin 1 else if q = -pid2 then F64.fin (-1) else F64.fin q

/-- Modelled host `f64::powi`: a zero exponent yields `1.0` for every
base (the LLVM `powi` algorithm performs no multiplication); identity
stand-in for other exponents. -/
def powiH (x : F64) (n : ℤ) : F64 :=
  if n = 0 then F64.fin 1 else x

/-- Base-2 logarithm with explicit fuel (structural recursion, so that it
evaluates by reduction); `log2Fuel 1100 n` is `Nat.log2 n` for every
denominator a double can have (`n ≤ 2^1074`). -/
def log2Fuel : ℕ → ℕ → ℕ
  | 0, _ => 0
  | fuel + 1, n => if n ≤ 1 then 0 else log2Fuel fuel (n / 2) + 1

/-- Decimal digits of a positive rational whose denominator is a power of
two (every finite double is one): the exact decimal expansion, which for
doubles like `-1.5` or `2` coincides with the host's shortest rendering. -/
def fmtPosRat (q : ℚ) : String :=
  let j : ℕ := log2Fuel 1100 q.den
  let m : ℕ := q.num.natAbs * 5 ^ j
  let s : String := Nat.repr m
  if j = 0 then s
  else
    let t : String := String.mk (List.replicate (j + 1 - s.length) '0') ++ s
    let L : ℕ := t.length
    t.take (L - j) ++ "." ++ t.drop (L - j)

/-- Modelled host `{}` rendering of a double (Rust prints `2.0` as `2`,
`-1.5` as `-1.5`, and signed zeros and non-finite values as below). -/
def fmtF64 : F64 → String
  | F64.nan => "NaN"
  | F64.inf false => "inf"
  | F64.inf true => "-inf"
  | F64.zero false => "0"
  | F64.zero true => "-0"
  | F64.fin q => if q < 0 then "-" ++ fmtPosRat (-q) else fmtPosRat q

/-- Fixed-point decimal rendering of a nonnegative rational with `p`
fractional digits, rounding to nearest with ties to even as the host
formatter does (computed on the integers `num·10^p` and `den`). -/
def fmtFixed (q : ℚ) (p : ℕ) : String :=
  let N : ℕ := q.num.natAbs * 10 ^ p
  let d : ℕ := q.den
  let w : ℕ := N / d
  let r : ℕ := N % d
  let n : ℕ := if 2 * r < d then w else if d < 2 * r then w + 1
               else if w % 2 = 0 then w else w + 1
  let s : String := Nat.repr n
  if p = 0 then s
  else
    let t : String := String.mk (List.replicate (p + 1 - s.length) '0') ++ s
    let L : ℕ := t.length
    t.take (L - p) ++ "." ++ t.drop (L - p)

/-- Modelled host `{:.p$}` rendering of a double. -/
def fmtPrecF64 : F64 → ℕ → String
  | F64.nan, _ => "NaN"
  | F64.inf false, _ => "inf"
  | F64.inf true, _ => "-inf"
  | F64.zero false, p => fmtFixed 0 p
  | F64.zero true, p => "-" ++ fmtFixed 0 p
  | F64.fin q, p => if q < 0 then "-" ++ fmtFixed (-q) p else fmtFixed q p

/-- The concrete host instance; `{:+}` prefixes `+` exactly when the sign
bit is clear, as the Rust plus flag does. -/
def host0 : Host where
  exp := expH
  ln := lnH
  cos := cosH
  sin := sinH
  sqrt := sqrtH
  hypot := hypotH
  atan2 := atan2H
  powi := powiH
  fmt := fmtF64
  fmtPlus := fun x => if x.signBit then fmtF64 x else "+" ++ fmtF64 x
  fmtPrec := fmtPrecF64
  fmtPlusPrec := fun x p => if x.signBit then fmtPrecF64 x p else "+" ++ fmtPrecF64 x p


/-- The facts about the host primitives that the IEEE-754 standard and
the Rust `f64` documentation guarantee, and that the parametric theorems
below use.  `pid` is the largest double below π, the extreme value
`atan2` can return. -/
structure HostOk (H : Host) : Prop where
  atan2_range : ∀ y x : F64, y.isNaN = false → x.isNaN = false →
    (H.atan2 y x).isFinite = true ∧ |(H.atan2 y x).finiteVal| ≤ pid
  hypot_notNaN : ∀ x y : F64, x.isNaN = false → y.isNaN = false →
    (H.hypot x y).isNaN = false
  hypot_sign : ∀ x y : F64, x.isNaN = false → y.isNaN = false →
    (H.hypot x y).signBit = false
  sqrt_notNaN : ∀ x : F64, x.isNaN = false → x.signBit = false →
    (H.sqrt x).isNaN = false
  sqrt_sign : ∀ x : F64, x.isNaN = false → x.signBit = false →
    (H.sqrt x).signBit = false
  cos_pos : ∀ t : F64, t.isFinite = true → |t.finiteVal| ≤ pid2 →
    ∃ q : ℚ, 0 < q ∧ H.cos t = F64.fin q
  sin_finite : ∀ t : F64, t.isFinite = true → (H.sin t).isFinite = true
  cos_zero : ∀ s : Bool, H.cos (F64.zero s) = F64.fin 1
  sin_zero : ∀ s : Bool, H.sin (F64.zero s) = F64.zero s
  powi_zero : ∀ x : F64, x.isNaN = false → H.powi x 0 = F64.fin 1

lemma ratSqrt_nonneg {q r : ℚ} (h : ratSqrt q = some r) : 0 ≤ r := by
  simp only [ratSqrt] at h
  split_ifs at h with hc
  · obtain rfl := (Option.some.inj h).symm
    positivity

lemma finiteVal_zero (s : Bool) : (F64.zero s).finiteVal = 0 := rfl

lemma finiteVal_fin (q : ℚ) : (F64.fin q).finiteVal = q := rfl

lemma atan2H_range (y x : F64) (hy : y.isNaN = false) (hx : x.isNaN = false) :
    (atan2H y x).isFinite = true ∧ |(atan2H y x).finiteVal| ≤ pid := by
  rcases y with _ | s | s | q <;> rcases x with _ | t | t | r
  all_goals try simp [F64.isNaN] at hy
  all_goals try simp [F64.isNaN] at hx
  all_goals simp only [atan2H, F64.signBit]
  all_goals try split_ifs
  all_goals
    exact ⟨rfl, by norm_num [finiteVal_zero, finiteVal_fin, pid, pid2, pid4, pid34, abs_le]⟩

lemma hypotH_mem (x y : F64) (hx : x.isNaN = false) (hy : y.isNaN = false) :
    hypotH x y = F64.inf false ∨ hypotH x y = F64.zero false ∨
    ∃ q : ℚ, 0 ≤ q ∧ hypotH x y = F64.fin q := by
  rcases x with _ | s | s | p <;> rcases y with _ | t | t | q
  all_goals try simp [F64.isNaN] at hx
  all_goals try simp [F64.isNaN] at hy
  all_goals try exact .inl rfl
  · exact .inr (.inl rfl)
  · exact .inr (.inr ⟨|q|, abs_nonneg q, rfl⟩)
  · exact .inr (.inr ⟨|p|, abs_nonneg p, rfl⟩)
  · rcases h : ratSqrt (p * p + q * q) with _ | r
    · exact .inr (.inr ⟨|p| + |q|, by positivity, by simp [hypotH, h]⟩)
    · exact .inr (.inr ⟨r, ratSqrt_nonneg h, by simp [hypotH, h]⟩)

lemma hypotH_notNaN (x y : F64) (hx : x.isNaN = false) (hy : y.isNaN = false) :
    (hypotH x y).isNaN = false := by
  rcases hypotH_mem x y hx hy with h | h | ⟨q, _, h⟩ <;> rw [h] <;> rfl

lemma hypotH_sign (x y : F64) (hx : x.isNaN = false) (hy : y.isNaN = false) :
    (hypotH x y).signBit = false := by
  rcases hypotH_mem x y hx hy with h | h | ⟨q, hq, h⟩ <;> rw [h]
  · rfl
  · rfl
  · simp only [F64.signBit, decide_eq_false_iff_not]
    exact not_lt.mpr hq

lemma sqrtH_mem (x : F64) (hx : x.isNaN = false) (hs : x.signBit = false) :
    sqrtH x = F64.inf false ∨ sqrtH x = F64.zero false ∨
    ∃ q : ℚ, 0 ≤ q ∧ sqrtH x = F64.fin q := by
  rcases x with _ | s | s | q
  · simp [F64.isNaN] at hx
  · rcases s with _ | _
    · exact .inl rfl
    · simp [F64.signBit] at hs
  · rcases s with _ | _
    · exact .inr (.inl rfl)
    · simp [F64.signBit] at hs
  · have hq : ¬ q < 0 := by simpa [F64.signBit] using hs
    simp only [sqrtH]
    rw [if_neg hq]
    rcases h : ratSqrt q with _ | r
    · exact .inr (.inr ⟨q, not_lt.mp hq, rfl⟩)
    · have hred : (match some r with
          | some r => if r = 0 then F64.zero false else F64.fin r
          | none => F64.fin q) = if r = 0 then F64.zero false else F64.fin r := rfl
      rw [hred]
      split_ifs with h0
      · exact .inr (.inl rfl)
      · exact .inr (.inr ⟨r, ratSqrt_nonneg h, rfl⟩)

lemma sqrtH_notNaN (x : F64) (hx : x.isNaN = false) (hs : x.signBit = false) :
    (sqrtH x).isNaN = false := by
  rcases sqrtH_mem x hx hs with h | h | ⟨q, _, h⟩ <;> rw [h] <;> rfl

lemma sqrtH_sign (x : F64) (hx : x.isNaN = false) (hs : x.signBit = false) :
    (sqrtH x).signBit = false := by
  rcases sqrtH_mem x hx hs with h | h | ⟨q, hq, h⟩ <;> rw [h]
  · rfl
  · rfl
  · simp only [F64.signBit, decide_eq_false_iff_not]
    exact not_lt.mpr hq

lemma cosH_pos (t : F64) (ht : t.isFinite = true) (hb : |t.finiteVal| ≤ pid2) :
    ∃ q : ℚ, 0 < q ∧ cosH t = F64.fin q := by
  rcases t with _ | s | s | q
  · simp [F64.isFinite] at ht
  · simp [F64.isFinite] at ht
  · exact ⟨1, one_pos, rfl⟩
  · show ∃ r : ℚ, 0 < r ∧ (if q = pid2 ∨ q = -pid2 then F64.fin c0 else F64.fin 1) = F64.fin r
    split_ifs with h
    · exact ⟨c0, by norm_num [c0], rfl⟩
    · exact ⟨1, one_pos, rfl⟩

lemma sinH_finite (t : F64) (ht : t.isFinite = true) : (sinH t).isFinite = true := by
  rcases t with _ | s | s | q
  · simp [F64.isFinite] at ht
  · simp [F64.isFinite] at ht
  · rfl
  · show (if q = pid2 then F64.fin 1
          else if q = -pid2 then F64.fin (-1) else F64.fin q).isFinite = true
    split_ifs <;> rfl

theorem host0_ok : HostOk host0 :=
  ⟨atan2H_range, hypotH_notNaN, hypotH_sign, sqrtH_notNaN, sqrtH_sign,
   cosH_pos, sinH_finite, fun _ => rfl, fun _ => rfl, fun _ _ => rfl⟩


/-! ### Claim theorems -/

/-- C3: for every receiver, every operand (complex or real scalar), and
each of the eight compound-assignment operators, mutating the receiver
with the compound form leaves its two fields bit-identical to applying
the corresponding non-mutating operator to the old receiver and
reassigning the result. -/
theorem c3_compound_assign_matches_operator (z w : Complex) (r : F64) :
    Complex.addAssign z w = Complex.add z w ∧
    Complex.subAssign z w = Complex.sub z w ∧
    Complex.mulAssign z w = Complex.mul z w ∧
    Complex.divAssign z w = Complex.div z w ∧
    Complex.addAssignScalar z r = Complex.addScalar z r ∧
    Complex.subAssignScalar z r = Complex.subScalar z r ∧
    Complex.mulAssignScalar z r = Complex.mulScalar z r ∧
    Complex.divAssignScalar z r = Complex.divScalar z r :=
  ⟨rfl, rfl, rfl, rfl, rfl, rfl, rfl, rfl⟩

/-- C7: adding or subtracting a real scalar, in both the non-mutating and
the compound-assignment form, changes only the real component (to
`real ± rhs`) and leaves the imaginary component bit-identical. -/
theorem c7_scalar_add_sub_fix_imag (z : Complex) (r : F64) :
    (Complex.addScalar z r).imag = z.imag ∧
    (Complex.subScalar z r).imag = z.imag ∧
    (Complex.addAssignScalar z r).imag = z.imag ∧
    (Complex.subAssignScalar z r).imag = z.imag ∧
    (Complex.addScalar z r).real = z.real.add r ∧
    (Complex.subScalar z r).real = z.real.sub r ∧
    (Complex.addAssignScalar z r).real = z.real.add r ∧
    (Complex.subAssignScalar z r).real = z.real.sub r :=
  ⟨rfl, rfl, rfl, rfl, rfl, rfl, rfl, rfl⟩

lemma isZero_iff {x : F64} : x.isZero = true ↔ ∃ s, x = F64.zero s := by
  cases x <;> simp [F64.isZero]

lemma div_zero_denom (a : F64) (s : Bool) :
    (a.div (F64.zero s)).isNaN = true ∨ (a.div (F64.zero s)).isInf = true := by
  cases a <;> simp [F64.div, F64.isNaN, F64.isInf]

/-- C4: complex-by-complex division is a total function; whenever the
divisor's norm `c²+d²` is exactly zero, each result component is NaN or a
signed infinity, and `(1,0) / (0,0)` yields NaN in both components. -/
theorem c4_div_by_zero_norm :
    (∀ z w : Complex, (Complex.norm w).isZero = true →
      ((Complex.div z w).real.isNaN = true ∨ (Complex.div z w).real.isInf = true) ∧
      ((Complex.div z w).imag.isNaN = true ∨ (Complex.div z w).imag.isInf = true)) ∧
    Complex.div ⟨F64.fin 1, F64.zero false⟩ ⟨F64.zero false, F64.zero false⟩ =
      ⟨F64.nan, F64.nan⟩ := by
  constructor
  · intro z w h
    obtain ⟨s, hs⟩ := isZero_iff.mp h
    constructor
    · show (((z.real.mul w.real).add (z.imag.mul w.imag)).div (Complex.norm w)).isNaN = true ∨
        (((z.real.mul w.real).add (z.imag.mul w.imag)).div (Complex.norm w)).isInf = true
      rw [hs]
      exact div_zero_denom _ s
    · show (((z.imag.mul w.real).sub (z.real.mul w.imag)).div (Complex.norm w)).isNaN = true ∨
        (((z.imag.mul w.real).sub (z.real.mul w.imag)).div (Complex.norm w)).isInf = true
      rw [hs]
      exact div_zero_denom _ s
  · rfl

/-- Witness for C4: the divisor `(0,0)` has norm `+0`, and dividing
`(1,0)` by it produces NaN (hence NaN-or-infinity) in both components. -/
theorem c4_div_by_zero_norm_witness :
    (Complex.norm ⟨F64.zero false, F64.zero false⟩).isZero = true ∧
    (((Complex.div ⟨F64.fin 1, F64.zero false⟩ ⟨F64.zero false, F64.zero false⟩).real.isNaN = true ∨
      (Complex.div ⟨F64.fin 1, F64.zero false⟩ ⟨F64.zero false, F64.zero false⟩).real.isInf = true) ∧
     ((Complex.div ⟨F64.fin 1, F64.zero false⟩ ⟨F64.zero false, F64.zero false⟩).imag.isNaN = true ∨
      (Complex.div ⟨F64.fin 1, F64.zero false⟩ ⟨F64.zero false, F64.zero false⟩).imag.isInf = true)) :=
  ⟨by decide,
   c4_div_by_zero_norm.1 ⟨F64.fin 1, F64.zero false⟩ ⟨F64.zero false, F64.zero false⟩ (by decide)⟩


/-- Definitional reduction lemmas for the finite/zero arms of the model
arithmetic, used to evaluate the code at concrete inputs. -/
lemma F64.mul_fin_zero (p : ℚ) (s : Bool) :
    (F64.fin p).mul (F64.zero s) = F64.zero (decide (p < 0) != s) := rfl

lemma F64.mul_zero_fin (s : Bool) (q : ℚ) :
    (F64.zero s).mul (F64.fin q) = F64.zero (s != decide (q < 0)) := rfl

lemma F64.mul_zero_zero (s t : Bool) :
    (F64.zero s).mul (F64.zero t) = F64.zero (s != t) := rfl

lemma F64.mul_fin_fin (p q : ℚ) :
    (F64.fin p).mul (F64.fin q) =
      if p * q = 0 then F64.zero (decide (p < 0) != decide (q < 0)) else F64.fin (p * q) := rfl

lemma F64.add_fin_zero (p : ℚ) (s : Bool) :
    (F64.fin p).add (F64.zero s) = F64.fin p := rfl

lemma F64.add_zero_fin (s : Bool) (q : ℚ) :
    (F64.zero s).add (F64.fin q) = F64.fin q := rfl

lemma one_mul_fin_one : (F64.fin 1).mul (F64.fin 1) = F64.fin 1 := by
  rw [F64.mul_fin_fin, if_neg (by norm_num : ¬ ((1:ℚ) * 1 = 0))]
  norm_num

/-- C8: the default rendering is the host rendering of the real component,
then the sign-forced rendering of the imaginary component, then the
literal suffix; rendering `(-1.5, 2.0)` (the value `mkRat (-3) 2` is the
double `-1.5`) with default precision gives exactly `-1.5+2i`. -/
theorem c8_display_default_format (H : Host) (z : Complex) :
    Complex.display H z none = H.fmt z.real ++ H.fmtPlus z.imag ++ "i" ∧
    Complex.display host0 ⟨F64.fin (mkRat (-3) 2), F64.fin 2⟩ none = "-1.5+2i" ∧
    mkRat (-3) 2 = (-1.5 : ℚ) :=
  ⟨rfl, by decide, by norm_num [Rat.mkRat_eq_div]⟩

/-- C10: the Debug rendering coincides with the default (no-precision)
Display rendering for every value and every requested precision, and in
particular ignores a requested precision instead of forwarding it (shown
concretely at `(-1.5, 2.0)` with precision 3, where Display differs). -/
theorem c10_debug_is_default_display (H : Host) (z : Complex) (p : ℕ) :
    Complex.debugFmt H z (some p) = Complex.display H z none ∧
    Complex.debugFmt H z none = Complex.display H z none ∧
    Complex.debugFmt host0 ⟨F64.fin (mkRat (-3) 2), F64.fin 2⟩ (some 3) = "-1.5+2i" ∧
    Complex.display host0 ⟨F64.fin (mkRat (-3) 2), F64.fin 2⟩ (some 3) = "-1.500+2.000i" :=
  ⟨rfl, rfl, by decide, by decide⟩

/-- C1 (code bug): at base `z = i` and exponent `e = 1`, `powc` returns
`(1, pid2)` — the polar pair `(e^{Re(e·ln z)}, Im(e·ln z))` — whereas
`exp(e·ln(z))` built from the library's own `mul`, `ln` and `exp` is
`(c0, 1) ≈ i`; the two disagree, so `powc(e)` is not `exp(e·ln(self))`. -/
theorem c1_powc_neq_exp_mul_ln :
    Complex.powc host0 Complex.IMAG_UNIT Complex.REAL_UNIT = ⟨F64.fin 1, F64.fin pid2⟩ ∧
    Complex.exp host0 (Complex.mul Complex.REAL_UNIT (Complex.ln host0 Complex.IMAG_UNIT)) =
      ⟨F64.fin c0, F64.fin 1⟩ ∧
    Complex.powc host0 Complex.IMAG_UNIT Complex.REAL_UNIT ≠
      Complex.exp host0 (Complex.mul Complex.REAL_UNIT (Complex.ln host0 Complex.IMAG_UNIT)) := by
  have habs : Complex.abs host0 Complex.IMAG_UNIT = F64.fin 1 := by
    show F64.fin |(1:ℚ)| = F64.fin 1
    rw [abs_one]
  have hln : Complex.ln host0 Complex.IMAG_UNIT = ⟨F64.zero false, F64.fin pid2⟩ := by
    show (⟨host0.ln (Complex.abs host0 Complex.IMAG_UNIT),
           Complex.arg host0 Complex.IMAG_UNIT⟩ : Complex) = _
    rw [habs]
    congr 1
  have h10 : (F64.fin 1).mul (F64.zero false) = F64.zero false := by
    rw [F64.mul_fin_zero]
    all_goals rw [decide_eq_false (by norm_num : ¬ ((1:ℚ) < 0))]
    all_goals rfl
  have h0p : (F64.zero false).mul (F64.fin pid2) = F64.zero false := by
    rw [F64.mul_zero_fin]
    all_goals rw [decide_eq_false (by norm_num [pid2] : ¬ (pid2 < 0))]
    all_goals rfl
  have h1p : (F64.fin 1).mul (F64.fin pid2) = F64.fin pid2 := by
    rw [F64.mul_fin_fin, if_neg (by norm_num [pid2] : ¬ ((1:ℚ) * pid2 = 0)), one_mul]
  have h1c : (F64.fin 1).mul (F64.fin c0) = F64.fin c0 := by
    rw [F64.mul_fin_fin, if_neg (by norm_num [c0] : ¬ ((1:ℚ) * c0 = 0)), one_mul]
  have hcos : host0.cos (F64.fin pid2) = F64.fin c0 := by
    show (if pid2 = pid2 ∨ pid2 = -pid2 then F64.fin c0 else F64.fin 1) = F64.fin c0
    rw [if_pos (Or.inl rfl)]
  have hsin : host0.sin (F64.fin pid2) = F64.fin 1 := by
    show (if pid2 = pid2 then F64.fin 1
          else if pid2 = -pid2 then F64.fin (-1) else F64.fin pid2) = F64.fin 1
    rw [if_pos rfl]
  have hmulC : Complex.mul Complex.REAL_UNIT (Complex.ln host0 Complex.IMAG_UNIT) =
      ⟨F64.zero false, F64.fin pid2⟩ := by
    show (⟨((F64.fin 1).mul (Complex.ln host0 Complex.IMAG_UNIT).real).sub
            ((F64.zero false).mul (Complex.ln host0 Complex.IMAG_UNIT).imag),
           ((F64.fin 1).mul (Complex.ln host0 Complex.IMAG_UNIT).imag).add
            ((F64.zero false).mul (Complex.ln host0 Complex.IMAG_UNIT).real)⟩ : Complex) = _
    rw [hln]
    dsimp only
    rw [h10, h0p, h1p]
    rfl
  have e1 : Complex.powc host0 Complex.IMAG_UNIT Complex.REAL_UNIT =
      ⟨F64.fin 1, F64.fin pid2⟩ := by
    show (⟨host0.exp (((F64.fin 1).mul (Complex.ln host0 Complex.IMAG_UNIT).real).sub
            ((F64.zero false).mul (Complex.ln host0 Complex.IMAG_UNIT).imag)),
           ((F64.fin 1).mul (Complex.ln host0 Complex.IMAG_UNIT).imag).add
            ((F64.zero false).mul (Complex.ln host0 Complex.IMAG_UNIT).real)⟩ : Complex) = _
    rw [hln]
    dsimp only
    rw [h10, h0p, h1p]
    rfl
  have e2 : Complex.exp host0 (Complex.mul Complex.REAL_UNIT (Complex.ln host0 Complex.IMAG_UNIT)) =
      ⟨F64.fin c0, F64.fin 1⟩ := by
    rw [hmulC]
    show (⟨(host0.exp (F64.zero false)).mul (host0.cos (F64.fin pid2)),
           (host0.exp (F64.zero false)).mul (host0.sin (F64.fin pid2))⟩ : Complex) = _
    rw [hcos, hsin]
    show (⟨(F64.fin 1).mul (F64.fin c0), (F64.fin 1).mul (F64.fin 1)⟩ : Complex) = _
    rw [h1c, one_mul_fin_one]
  refine ⟨e1, e2, ?_⟩
  rw [e1, e2]
  intro h
  simp only [Complex.mk.injEq, F64.fin.injEq] at h
  exact absurd h.1 (by norm_num [c0])

/-- C6 counterexample: at the base `(NaN, 0.0)` the value `powi(0)` has
NaN components, so it is not the real unit `(1, 0)` (it differs even
under IEEE value equality, under which NaN is unequal to everything). -/
theorem c6_powi_zero_nan_base :
    (Complex.powi host0 ⟨F64.nan, F64.zero false⟩ 0).real.isNaN = true ∧
    (Complex.powi host0 ⟨F64.nan, F64.zero false⟩ 0).imag.isNaN = true ∧
    Complex.ieeeEq (Complex.powi host0 ⟨F64.nan, F64.zero false⟩ 0) Complex.REAL_UNIT = false :=
  ⟨rfl, rfl, rfl⟩

/-- C6 amended: for every host obeying the IEEE contract, raising a base
with non-NaN components to the integer exponent 0 yields the real unit
`(1, 0)` up to IEEE value equality (the imaginary part can be `-0.0`,
which compares equal to `0.0`). -/
theorem c6_powi_zero_amended (H : Host) (hH : HostOk H) (z : Complex)
    (hre : z.real.isNaN = false) (him : z.imag.isNaN = false) :
    Complex.ieeeEq (Complex.powi H z 0) Complex.REAL_UNIT = true := by
  have habs : (Complex.abs H z).isNaN = false := hH.hypot_notNaN z.real z.imag hre him
  have hpow : H.powi (Complex.abs H z) 0 = F64.fin 1 := hH.powi_zero _ habs
  have harg : (Complex.arg H z).isFinite = true := (hH.atan2_range z.imag z.real him hre).1
  have key : ∀ u : Bool,
      Complex.ieeeEq ⟨(F64.fin 1).mul (H.cos (F64.zero u)),
                      (F64.fin 1).mul (H.sin (F64.zero u))⟩ Complex.REAL_UNIT = true := by
    intro u
    rw [hH.cos_zero u, hH.sin_zero u, one_mul_fin_one, F64.mul_fin_zero,
        decide_eq_false (by norm_num : ¬ ((1:ℚ) < 0))]
    cases u <;> rfl
  show Complex.ieeeEq
      ⟨(H.powi (Complex.abs H z) 0).mul (H.cos ((F64.ofInt 0).mul (Complex.arg H z))),
       (H.powi (Complex.abs H z) 0).mul (H.sin ((F64.ofInt 0).mul (Complex.arg H z)))⟩
      Complex.REAL_UNIT = true
  rw [hpow]
  rcases hA : Complex.arg H z with _ | t | t | q
  · rw [hA] at harg; simp [F64.isFinite] at harg
  · rw [hA] at harg; simp [F64.isFinite] at harg
  · have hred : (F64.ofInt 0).mul (F64.zero t) = F64.zero t := by cases t <;> rfl
    rw [hred]
    exact key t
  · by_cases hq : q < 0
    · have hred : (F64.ofInt 0).mul (F64.fin q) = F64.zero true := by
        show F64.zero (false != decide (q < 0)) = F64.zero true
        rw [decide_eq_true hq]
        all_goals rfl
      rw [hred]
      exact key true
    · have hred : (F64.ofInt 0).mul (F64.fin q) = F64.zero false := by
        show F64.zero (false != decide (q < 0)) = F64.zero false
        rw [decide_eq_false hq]
        all_goals rfl
      rw [hred]
      exact key false

/-- Witness for C6 (amended): at `host0` and the base `(1.0, 0.0)`,
whose components are not NaN, `powi(0)` equals the real unit. -/
theorem c6_powi_zero_amended_witness :
    (F64.fin 1).isNaN = false ∧ (F64.zero false).isNaN = false ∧
    Complex.ieeeEq (Complex.powi host0 ⟨F64.fin 1, F64.zero false⟩ 0) Complex.REAL_UNIT = true :=
  ⟨rfl, rfl, c6_powi_zero_amended host0 host0_ok ⟨F64.fin 1, F64.zero false⟩ rfl rfl⟩


/-- The property the spec asserts of `arg()`: a finite double whose value
lies in the half-open interval `(-π, π]` of real numbers. -/
def InPrincipalRange (x : F64) : Prop :=
  x.isFinite = true ∧ -Real.pi < (x.finiteVal : ℝ) ∧ (x.finiteVal : ℝ) ≤ Real.pi

/-- The largest double below π is below the real π. -/
lemma pid_lt_pi : ((pid : ℚ) : ℝ) < Real.pi := by
  have h20 : (3.14159265358979323846 : ℝ) < Real.pi := Real.pi_gt_d20
  have hlt : ((pid : ℚ) : ℝ) < 3.14159265358979323846 := by
    simp only [pid]
    push_cast
    norm_num
  linarith

/-- C2 counterexample: with a NaN imaginary component, `arg()` is NaN
(`atan2(NaN, x) = NaN`), which is not a value in `(-π, π]`. -/
theorem c2_arg_nan_component :
    (Complex.arg host0 ⟨F64.zero false, F64.nan⟩).isNaN = true ∧
    ¬ InPrincipalRange (Complex.arg host0 ⟨F64.zero false, F64.nan⟩) := by
  refine ⟨rfl, fun h => ?_⟩
  have hfin : F64.nan.isFinite = true := h.1
  simp [F64.isFinite] at hfin

/-- C2 amended: for every host obeying the IEEE contract and every value
whose components are not NaN, `arg()` is a finite double strictly between
`-π` and `π` (hence in `(-π, π]`): `atan2` never exceeds the double
nearest π, which is itself strictly below the real π. -/
theorem c2_arg_principal_range_amended (H : Host) (hH : HostOk H) (z : Complex)
    (hre : z.real.isNaN = false) (him : z.imag.isNaN = false) :
    InPrincipalRange (Complex.arg H z) := by
  obtain ⟨hfin, hb⟩ := hH.atan2_range z.imag z.real him hre
  obtain ⟨hb1, hb2⟩ := abs_le.mp hb
  have hcast1 : -((pid : ℚ) : ℝ) ≤ ((Complex.arg H z).finiteVal : ℝ) := by
    exact_mod_cast hb1
  have hcast2 : ((Complex.arg H z).finiteVal : ℝ) ≤ ((pid : ℚ) : ℝ) := by
    exact_mod_cast hb2
  refine ⟨hfin, ?_, ?_⟩
  · linarith [pid_lt_pi]
  · linarith [pid_lt_pi]

/-- Witness for C2 (amended): at `host0` and the value `(1.0, 0.0)`,
whose components are not NaN, the argument lies in `(-π, π]`. -/
theorem c2_arg_principal_range_amended_witness :
    (F64.fin 1).isNaN = false ∧ (F64.zero false).isNaN = false ∧
    InPrincipalRange (Complex.arg host0 ⟨F64.fin 1, F64.zero false⟩) :=
  ⟨rfl, rfl, c2_arg_principal_range_amended host0 host0_ok ⟨F64.fin 1, F64.zero false⟩ rfl rfl⟩

lemma isFinite_not_nan {x : F64} (h : x.isFinite = true) : x.isNaN = false := by
  cases x <;> simp_all [F64.isFinite, F64.isNaN]

lemma mul_zero_left_nonneg (s : Bool) (y : F64) (hy : y.isFinite = true) :
    ((F64.zero s).mul y).nonneg = true := by
  rcases y with _ | t | t | q
  · simp [F64.isFinite] at hy
  · simp [F64.isFinite] at hy
  · rfl
  · rfl

/-- The two `sqrt` components are a nonnegative real part, and, when the
real part is a zero, a nonnegative imaginary part — for any magnitude
`s = sqrt(abs())` that is non-NaN with clear sign bit, any cosine value
that is a positive finite double, and any finite sine value. -/
lemma sqrt_components_nonneg (s cosv sinv : F64)
    (hsN : s.isNaN = false) (hsS : s.signBit = false)
    (c : ℚ) (hc : 0 < c) (hcos : cosv = F64.fin c)
    (hsin : sinv.isFinite = true) :
    (s.mul cosv).nonneg = true ∧
    ((s.mul cosv).isZero = true → (s.mul sinv).nonneg = true) := by
  subst hcos
  rcases s with _ | t | t | p
  · simp [F64.isNaN] at hsN
  · have ht : t = false := by simpa [F64.signBit] using hsS
    subst ht
    constructor
    · show (F64.inf (false != decide (c < 0))).nonneg = true
      rw [decide_eq_false (not_lt.mpr hc.le)]
      rfl
    · intro h
      exact absurd h (by
        show (F64.inf (false != decide (c < 0))).isZero ≠ true
        simp [F64.isZero])
  · have ht : t = false := by simpa [F64.signBit] using hsS
    subst ht
    refine ⟨rfl, fun _ => ?_⟩
    exact mul_zero_left_nonneg false sinv hsin
  · have hp : ¬ p < 0 := by simpa [F64.signBit] using hsS
    by_cases hp0 : p = 0
    · subst hp0
      constructor
      · show (if (0:ℚ) * c = 0 then F64.zero (decide ((0:ℚ) < 0) != decide (c < 0))
              else F64.fin (0 * c)).nonneg = true
        rw [if_pos (by ring)]
        rfl
      · intro _
        rcases sinv with _ | u | u | r
        · simp [F64.isFinite] at hsin
        · simp [F64.isFinite] at hsin
        · rfl
        · show (if (0:ℚ) * r = 0 then F64.zero (decide ((0:ℚ) < 0) != decide (r < 0))
                else F64.fin (0 * r)).nonneg = true
          rw [if_pos (by ring)]
          rfl
    · have hppos : 0 < p := lt_of_le_of_ne (not_lt.mp hp) (Ne.symm hp0)
      have hpc : p * c ≠ 0 := by positivity
      constructor
      · show (if p * c = 0 then F64.zero (decide (p < 0) != decide (c < 0))
              else F64.fin (p * c)).nonneg = true
        rw [if_neg hpc]
        show decide (0 ≤ p * c) = true
        exact decide_eq_true (by positivity)
      · intro h
        exfalso
        revert h
        show (if p * c = 0 then F64.zero (decide (p < 0) != decide (c < 0))
              else F64.fin (p * c)).isZero = true → False
        rw [if_neg hpc]
        simp [F64.isZero]

/-- C5: for every host obeying the IEEE contract and every value with
finite (non-NaN, non-infinite) components, `sqrt` has a nonnegative real
component, and when that real component is zero the imaginary component
is nonnegative (IEEE comparison, under which `-0.0 ≥ 0` holds). -/
theorem c5_sqrt_principal_branch (H : Host) (hH : HostOk H) (z : Complex)
    (hre : z.real.isFinite = true) (him : z.imag.isFinite = true) :
    (Complex.sqrtC H z).real.nonneg = true ∧
    ((Complex.sqrtC H z).real.isZero = true → (Complex.sqrtC H z).imag.nonneg = true) := by
  have hreN := isFinite_not_nan hre
  have himN := isFinite_not_nan him
  have habsN : (Complex.abs H z).isNaN = false := hH.hypot_notNaN _ _ hreN himN
  have habsS : (Complex.abs H z).signBit = false := hH.hypot_sign _ _ hreN himN
  have hsN : (H.sqrt (Complex.abs H z)).isNaN = false := hH.sqrt_notNaN _ habsN habsS
  have hsS : (H.sqrt (Complex.abs H z)).signBit = false := hH.sqrt_sign _ habsN habsS
  have harg := hH.atan2_range z.imag z.real himN hreN
  have hhalf : ((Complex.arg H z).mul (F64.fin (1/2))).isFinite = true ∧
      |((Complex.arg H z).mul (F64.fin (1/2))).finiteVal| ≤ pid2 := by
    obtain ⟨hf, hb⟩ := harg
    have hf2 : (Complex.arg H z).isFinite = true := hf
    have hb2 : |(Complex.arg H z).finiteVal| ≤ pid := hb
    rcases hA : Complex.arg H z with _ | t | t | q
    · rw [hA] at hf2; simp [F64.isFinite] at hf2
    · rw [hA] at hf2; simp [F64.isFinite] at hf2
    · constructor
      · rfl
      · show |(F64.zero (t != decide ((1:ℚ)/2 < 0))).finiteVal| ≤ pid2
        norm_num [finiteVal_zero, pid2]
    · rw [hA, finiteVal_fin] at hb2
      by_cases hq0 : q * (1/2) = 0
      · constructor
        · show (if q * (1/2 : ℚ) = 0 then F64.zero (decide (q < 0) != decide ((1:ℚ)/2 < 0))
                else F64.fin (q * (1/2))).isFinite = true
          rw [if_pos hq0]
          rfl
        · show |(if q * (1/2 : ℚ) = 0 then F64.zero (decide (q < 0) != decide ((1:ℚ)/2 < 0))
                else F64.fin (q * (1/2))).finiteVal| ≤ pid2
          rw [if_pos hq0]
          norm_num [finiteVal_zero, pid2]
      · constructor
        · show (if q * (1/2 : ℚ) = 0 then F64.zero (decide (q < 0) != decide ((1:ℚ)/2 < 0))
                else F64.fin (q * (1/2))).isFinite = true
          rw [if_neg hq0]
          rfl
        · show |(if q * (1/2 : ℚ) = 0 then F64.zero (decide (q < 0) != decide ((1:ℚ)/2 < 0))
                else F64.fin (q * (1/2))).finiteVal| ≤ pid2
          rw [if_neg hq0, finiteVal_fin]
          have habs2 : |q * (1/2 : ℚ)| = |q| / 2 := by
            rw [abs_mul, abs_of_pos (by norm_num : (0:ℚ) < 1/2)]
            ring
          have hpp : pid2 = pid / 2 := by norm_num [pid, pid2]
          rw [habs2, hpp]
          linarith
  obtain ⟨c, hc, hcos⟩ := hH.cos_pos _ hhalf.1 hhalf.2
  have hsin := hH.sin_finite _ hhalf.1
  exact sqrt_components_nonneg (H.sqrt (Complex.abs H z)) _ _ hsN hsS c hc hcos hsin

/-- Witness for C5: at `host0` and the value `(1.0, 0.0)`, whose
components are finite, the square root has the claimed sign behavior. -/
theorem c5_sqrt_principal_branch_witness :
    (F64.fin 1).isFinite = true ∧ (F64.zero false).isFinite = true ∧
    ((Complex.sqrtC host0 ⟨F64.fin 1, F64.zero false⟩).real.nonneg = true ∧
     ((Complex.sqrtC host0 ⟨F64.fin 1, F64.zero false⟩).real.isZero = true →
      (Complex.sqrtC host0 ⟨F64.fin 1, F64.zero false⟩).imag.nonneg = true)) :=
  ⟨rfl, rfl, c5_sqrt_principal_branch host0 host0_ok ⟨F64.fin 1, F64.zero false⟩ rfl rfl⟩

end RustComplex
